import Mathlib

/-!
Shallow embedding of the chess FEN decoder/validator core
(`src/engine/{piece,board,move,fen,chess}.py`) and proofs about it.

Python-specific behaviours are modelled explicitly:
list indexing `l[i]` accepts negative indices in `[-len l, -1]` (wrapping
from the end) and raises `IndexError` otherwise; `dict[k]` raises
`KeyError` on a missing key; `int(s)` raises `ValueError` on a
non-numeric string; exceptions are values of `PyErr` carried by `Except`.
Strings are modelled as `List Char` where convenient, with `String`
wrappers at the API boundary.
-/

/-- The kinds of Python exceptions the embedded code can raise. -/
inductive PyErr where
  /-- Python `IndexError` from list indexing. -/
  | indexError : PyErr
  /-- Python `KeyError` from dict lookup. -/
  | keyError : PyErr
  /-- Python `ValueError` (e.g. from `int(s)` or `Piece.from_fen_symbol`). -/
  | valueError (msg : String) : PyErr
  /-- `NotationError` from `src/engine/move.py`. -/
  | notationErr (msg : String) : PyErr
  /-- `InvalidFENError` from `src/engine/fen.py`: carries the offending
  string and a reason. -/
  | invalidFEN (fen : String) (reason : String) : PyErr
  deriving Repr, DecidableEq

/-- Effective index of Python list indexing `l[i]` on a list of length `n`:
negative indices in `[-n, -1]` wrap from the end, anything else is invalid. -/
def pyIndex (n : Nat) (i : Int) : Option Nat :=
  if i < 0 then
    if -(n : Int) ≤ i then some (i + n).toNat else none
  else
    if i < n then some i.toNat else none

/-- Python `l[i]` (read): raises `IndexError` when out of range. -/
def pyGet (l : List α) (i : Int) : Except PyErr α :=
  match pyIndex l.length i with
  | some j =>
    match l.get? j with
    | some a => Except.ok a
    | none => Except.error PyErr.indexError
  | none => Except.error PyErr.indexError

/-- Python `l[i] = a` (write): raises `IndexError` when out of range. -/
def pySet (l : List α) (i : Int) (a : α) : Except PyErr (List α) :=
  match pyIndex l.length i with
  | some j => Except.ok (l.set j a)
  | none => Except.error PyErr.indexError

/-- Python `str.isspace` for the ASCII whitespace characters relevant here. -/
def pyIsSpace (c : Char) : Bool :=
  c = ' ' || c = '\t' || c = '\n' || c = '\x0d' || c = '\x0b' || c = '\x0c'

/-- Python `str.isdigit` restricted to ASCII digits. -/
def pyIsDigit (c : Char) : Bool :=
  48 ≤ c.toNat && c.toNat ≤ 57

/-- Value of an ASCII digit character. -/
def digitVal (c : Char) : Nat := c.toNat - 48

/-- Python `str.isdigit` on a whole string: nonempty and all digits. -/
def pyIsDigitStr (cs : List Char) : Bool :=
  !cs.isEmpty && cs.all pyIsDigit

/-- Python `str.isupper` for a single ASCII character. -/
def pyIsUpper (c : Char) : Bool :=
  65 ≤ c.toNat && c.toNat ≤ 90

/-- Numeric value of a list of ASCII digit characters (base 10). -/
def digitsVal (cs : List Char) : Nat :=
  cs.foldl (fun acc c => 10 * acc + digitVal c) 0

/-- Python `int(s)`: strips whitespace, allows one optional sign, then
requires a nonempty run of digits; raises `ValueError` otherwise. -/
def pyInt (cs : List Char) : Except PyErr Int :=
  let t := (cs.dropWhile pyIsSpace).reverse.dropWhile pyIsSpace |>.reverse
  match t with
  | '-' :: rest =>
    if pyIsDigitStr rest then Except.ok (-(digitsVal rest : Int))
    else Except.error (PyErr.valueError "invalid literal for int")
  | '+' :: rest =>
    if pyIsDigitStr rest then Except.ok (digitsVal rest : Int)
    else Except.error (PyErr.valueError "invalid literal for int")
  | _ =>
    if pyIsDigitStr t then Except.ok (digitsVal t : Int)
    else Except.error (PyErr.valueError "invalid literal for int")

/-- Auxiliary for Python `str.split()` with no separator: accumulate the
current word (reversed) and split on runs of whitespace, dropping empties. -/
def pySplitWSAux : List Char → List Char → List (List Char)
  | [], acc => if acc.isEmpty then [] else [acc.reverse]
  | c :: cs, acc =>
    if pyIsSpace c then
      if acc.isEmpty then pySplitWSAux cs []
      else acc.reverse :: pySplitWSAux cs []
    else pySplitWSAux cs (c :: acc)

/-- Python `str.split()` (no separator): splits on whitespace runs and
drops empty strings; `s.strip().split()` coincides with it. -/
def pySplitWS (cs : List Char) : List (List Char) := pySplitWSAux cs []

/-- Auxiliary for Python `str.split(sep)` with a one-character separator. -/
def pySplitSepAux (sep : Char) : List Char → List Char → List (List Char)
  | [], acc => [acc.reverse]
  | c :: cs, acc =>
    if c = sep then acc.reverse :: pySplitSepAux sep cs []
    else pySplitSepAux sep cs (c :: acc)

/-- Python `str.split(sep)` for a one-character separator: keeps empties. -/
def pySplitSep (sep : Char) (cs : List Char) : List (List Char) :=
  pySplitSepAux sep cs []

/-- Python `str.lower` for a single ASCII character. -/
def pyToLower (c : Char) : Char :=
  if pyIsUpper c then Char.ofNat (c.toNat + 32) else c

/- ------------------------------------------------------------------
src/engine/piece.py
------------------------------------------------------------------ -/

/-- `PieceType` enum from `src/engine/piece.py`. -/
inductive PieceType where
  | PAWN | ROOK | KNIGHT | BISHOP | QUEEN | KING
  deriving Repr, DecidableEq

/-- `PieceColor` enum from `src/engine/piece.py`. -/
inductive PieceColor where
  | WHITE | BLACK
  deriving Repr, DecidableEq

/-- The `FEN_MAP` dict from `src/engine/piece.py`, as a partial lookup. -/
def FEN_MAP : Char → Option PieceType
  | 'p' => some PieceType.PAWN
  | 'r' => some PieceType.ROOK
  | 'n' => some PieceType.KNIGHT
  | 'b' => some PieceType.BISHOP
  | 'q' => some PieceType.QUEEN
  | 'k' => some PieceType.KING
  | _ => none

/-- The `Piece` dataclass from `src/engine/piece.py`. -/
structure Piece where
  type : PieceType
  color : PieceColor
  deriving Repr, DecidableEq

/-- `Piece.from_fen_symbol` from `src/engine/piece.py`: case decides the
color, `FEN_MAP` the type; a missing key raises `ValueError`. -/
def Piece.from_fen_symbol (fen : Char) : Except PyErr Piece :=
  let color := if pyIsUpper fen then PieceColor.WHITE else PieceColor.BLACK
  match FEN_MAP (pyToLower fen) with
  | some t => Except.ok ⟨t, color⟩
  | none =>
    Except.error
      (PyErr.valueError ("Invalid FEN symbol used to create piece"))

/-- `Piece.is_king` from `src/engine/piece.py`. -/
def Piece.is_king (p : Piece) : Bool := p.type = PieceType.KING

/- ------------------------------------------------------------------
src/engine/board.py
------------------------------------------------------------------ -/

/-- `create_empty_squares` from `src/engine/board.py`: an 8×8 grid of
`None`. -/
def create_empty_squares : List (List (Option Piece)) :=
  List.replicate 8 (List.replicate 8 (none : Option Piece))

/-- The `ChessBoard` dataclass from `src/engine/board.py`. -/
structure ChessBoard where
  squares : List (List (Option Piece))
  deriving Repr, DecidableEq

/-- A `ChessBoard()` with the default factory. -/
def ChessBoard.default : ChessBoard := ⟨create_empty_squares⟩

/-- The representation invariant the Python code maintains implicitly:
8 rows of 8 squares. -/
def ChessBoard.WF (b : ChessBoard) : Prop :=
  b.squares.length = 8 ∧ ∀ row ∈ b.squares, row.length = 8

/-- `ChessBoard.get_square`: `self.squares[row][col]` with Python
indexing semantics. -/
def ChessBoard.get_square (b : ChessBoard) (row col : Int) :
    Except PyErr (Option Piece) := do
  let r ← pyGet b.squares row
  pyGet r col

/-- `ChessBoard.set_piece`: `self.squares[row][col] = piece` with Python
indexing semantics (the row list is fetched, mutated, and—being the same
object—reflected in the board). -/
def ChessBoard.set_piece (b : ChessBoard) (piece : Option Piece)
    (row col : Int) : Except PyErr ChessBoard := do
  let r ← pyGet b.squares row
  let r' ← pySet r col piece
  let sq ← pySet b.squares row r'
  return ⟨sq⟩

/-- `ChessBoard.move_piece` from `src/engine/board.py`: reads the start
square; if it holds a piece, writes that piece to the end square. The
start square is not cleared. -/
def ChessBoard.move_piece (b : ChessBoard)
    (start_row start_col end_row end_col : Int) : Except PyErr ChessBoard := do
  let r ← pyGet b.squares start_row
  let piece ← pyGet r start_col
  match piece with
  | none => return b
  | some p => b.set_piece (some p) end_row end_col

/- ------------------------------------------------------------------
src/engine/move.py
------------------------------------------------------------------ -/

/-- `is_valid_square` from `src/engine/move.py`: both indices in
`range(8)`. -/
def is_valid_square (row col : Int) : Bool :=
  (0 ≤ row && row < 8) && (0 ≤ col && col < 8)

/-- `is_valid_squarename` from `src/engine/move.py`: two characters, a
(case-insensitive) file letter then a rank digit. -/
def is_valid_squarename (square_name : List Char) : Bool :=
  match square_name with
  | [f, r] => "abcdefgh".data.contains (pyToLower f) && "12345678".data.contains r
  | _ => false

/-- Python `"abcdefgh".find(c)`: first index of `c`, `-1` if absent. -/
def strFind (s : List Char) (c : Char) : Int :=
  match s.indexOf? c with
  | some i => (i : Int)
  | none => -1

/-- `squarename_to_index` from `src/engine/move.py`: validates the name,
then returns `(int(name[1]) - 1, "abcdefgh".find(name[0].lower()))`. -/
def squarename_to_index (square_name : List Char) : Except PyErr (Int × Int) :=
  if !is_valid_squarename square_name then
    Except.error (PyErr.notationErr "Square name must be in format a1 through h8")
  else do
    let c1 ← pyGet square_name 1
    let c0 ← pyGet square_name 0
    let r ← pyInt [c1]
    return (r - 1, strFind "abcdefgh".data (pyToLower c0))

/-- `index_to_squarename` from `src/engine/move.py`: validates the
indices, then emits `'abcdefgh'[col]` followed by `str(row + 1)`. -/
def index_to_squarename (row col : Int) : Except PyErr (List Char) :=
  if !is_valid_square row col then
    Except.error (PyErr.notationErr "Square index cannot be converted to square name")
  else do
    let f ← pyGet "abcdefgh".data col
    return [f, Nat.digitChar (row + 1).toNat]

/- ------------------------------------------------------------------
src/engine/chess.py
------------------------------------------------------------------ -/

/-- The `ChessGame` dataclass from `src/engine/chess.py` (the game-logic
methods are unimplemented stubs and are not modelled). -/
structure ChessGame where
  board : ChessBoard
  active_color : PieceColor
  white_castle_kingside : Bool
  white_castle_queenside : Bool
  black_castle_kingside : Bool
  black_castle_queenside : Bool
  en_passant_square : Option (Int × Int)
  halfmove_counter : Int
  fullmove_counter : Int
  deriving Repr, DecidableEq

/- ------------------------------------------------------------------
src/engine/fen.py
------------------------------------------------------------------ -/

/-- The `FEN_PIECETYPE_MAP` dict from `src/engine/fen.py`. -/
def FEN_PIECETYPE_MAP : Char → Option PieceType
  | 'p' => some PieceType.PAWN
  | 'r' => some PieceType.ROOK
  | 'n' => some PieceType.KNIGHT
  | 'b' => some PieceType.BISHOP
  | 'q' => some PieceType.QUEEN
  | 'k' => some PieceType.KING
  | _ => none

/-- `STARTING_FEN_SHORT` from `src/engine/fen.py`. -/
def STARTING_FEN_SHORT : String := "rnbqkbnr/pppppppp/8/8/8/8/PPPPPPPP/RNBQKBNR"

/-- `STARTING_FEN_LONG` from `src/engine/fen.py`. -/
def STARTING_FEN_LONG : String :=
  "rnbqkbnr/pppppppp/8/8/8/8/PPPPPPPP/RNBQKBNR w KQkq - 0 1"

/-- The character class of `re.match(r"^[prnbqkPRNBQK1-8/]+$", ...)`. -/
def isPlacementChar (c : Char) : Bool :=
  "prnbqkPRNBQK".data.contains c || (49 ≤ c.toNat && c.toNat ≤ 56) || c = '/'

/-- `re.match(r"^[prnbqkPRNBQK1-8/]+$", s)` succeeds. -/
def reMatchPlacement (cs : List Char) : Bool :=
  !cs.isEmpty && cs.all isPlacementChar

/-- `re.match(r"^[KQkq]+$", s)` succeeds. -/
def reMatchCastling (cs : List Char) : Bool :=
  !cs.isEmpty && cs.all (fun c => "KQkq".data.contains c)

/-- `re.match(r"^[a-h][36]$", s)` succeeds. -/
def reMatchEnPassant (cs : List Char) : Bool :=
  match cs with
  | [f, r] => (97 ≤ f.toNat && f.toNat ≤ 104) && (r = '3' || r = '6')
  | _ => false

/-- The transient `board = [["" for _ in range(8)] for _ in range(8)]`
of `is_valid_fen`, with `Option Char` for the `""`-or-symbol cells. -/
def emptyCharBoard : List (List (Option Char)) :=
  List.replicate 8 (List.replicate 8 (none : Option Char))

/-- The inner character loop of `is_valid_fen` (fen.py lines 100-109):
walks one placement rank, adding digits to the running column, writing
piece symbols at the running column (failing the validation — `none` —
if the column is already ≥ 8 or the character class is wrong). -/
def placeRank :
    List Char → List (List (Option Char)) → Int → Int →
    Except PyErr (Option (List (List (Option Char)) × Int))
  | [], board, _, col => Except.ok (some (board, col))
  | ch :: rest, board, boardRow, col =>
    if pyIsDigit ch then placeRank rest board boardRow (col + digitVal ch)
    else if "prnbqkPRNBQK".data.contains ch then
      if 8 ≤ col then Except.ok none
      else do
        let r ← pyGet board boardRow
        let r' ← pySet r col (some ch)
        let board' ← pySet board boardRow r'
        placeRank rest board' boardRow (col + 1)
    else Except.ok none

/-- The rank loop of `is_valid_fen` (fen.py lines 97-111): rank at FEN
index `i` is written to board row `7 - i`; after each rank the running
column must be exactly 8. -/
def placeRanks :
    List (List Char) → List (List (Option Char)) → Int →
    Except PyErr (Option (List (List (Option Char))))
  | [], board, _ => Except.ok (some board)
  | row :: rest, board, fenRowIndex => do
    match ← placeRank row board (7 - fenRowIndex) 0 with
    | none => Except.ok none
    | some (board', col) =>
      if col ≠ 8 then Except.ok none
      else placeRanks rest board' (fenRowIndex + 1)

/-- `sum(row.count(c) for row in board)` from `is_valid_fen`. -/
def countChar (board : List (List (Option Char))) (c : Char) : Nat :=
  (board.map (fun row => row.count (some c))).sum

/-- The `king_positions` dict of `is_valid_fen` (a lookup failure would
be a Python `KeyError`, though the preceding membership test makes that
unreachable). -/
def king_positions : Char → Except PyErr (Int × Int)
  | 'K' => Except.ok (0, 4)
  | 'Q' => Except.ok (0, 4)
  | 'k' => Except.ok (7, 4)
  | 'q' => Except.ok (7, 4)
  | _ => Except.error PyErr.keyError

/-- The `rook_positions` dict of `is_valid_fen`. -/
def rook_positions : Char → Except PyErr (Int × Int)
  | 'K' => Except.ok (0, 7)
  | 'Q' => Except.ok (0, 0)
  | 'k' => Except.ok (7, 7)
  | 'q' => Except.ok (7, 0)
  | _ => Except.error PyErr.keyError

/-- The castling-rights loop of `is_valid_fen` (fen.py lines 123-137):
for each flag the matching king and rook must be on their home squares. -/
def checkCastling :
    List Char → List (List (Option Char)) → Except PyErr Bool
  | [], _ => Except.ok true
  | flag :: rest, board =>
    if ¬ ("KQkq".data.contains flag) then Except.ok false
    else do
      let kpos ← king_positions flag
      let rpos ← rook_positions flag
      let expected_king := if pyIsUpper flag then 'K' else 'k'
      let expected_rook := if pyIsUpper flag then 'R' else 'r'
      let krow ← pyGet board kpos.1
      let kcell ← pyGet krow kpos.2
      let rrow ← pyGet board rpos.1
      let rcell ← pyGet rrow rpos.2
      if kcell ≠ some expected_king ∨ rcell ≠ some expected_rook then
        Except.ok false
      else checkCastling rest board

/-- The en-passant block of `is_valid_fen` (fen.py lines 139-155):
`file = ord(ep[0]) - ord('a')`, `rank = int(ep[1])`, `row = rank - 1`,
then for active color "w" require `rank == 6` and `board[row][file]`
to be a black pawn (for "b": `rank == 3` and a white pawn), with
Python's short-circuit `or` skipping the board access when the rank
test already fails. -/
def epCheck (board : List (List (Option Char)))
    (active_color en_passant : List Char) : Except PyErr Bool := do
  let e0 ← pyGet en_passant 0
  let file : Int := (e0.toNat : Int) - 97
  let e1 ← pyGet en_passant 1
  let rank ← pyInt [e1]
  let row := rank - 1
  if active_color = ['w'] then
    if rank ≠ 6 then Except.ok false
    else do
      let r ← pyGet board row
      let cell ← pyGet r file
      Except.ok (cell == some 'p')
  else if active_color = ['b'] then
    if rank ≠ 3 then Except.ok false
    else do
      let r ← pyGet board row
      let cell ← pyGet r file
      Except.ok (cell == some 'P')
  else Except.ok false

/-- The board-reconstruction and semantic part of `is_valid_fen`
(fen.py lines 91-157): rank placement, king count, castling
consistency, en-passant plausibility. -/
def is_valid_fen_semantic (pp ac cr ep : List Char) : Except PyErr Bool :=
  let rows := pySplitSep '/' pp
  if rows.length ≠ 8 then Except.ok false
  else do
    match ← placeRanks rows emptyCharBoard 0 with
    | none => Except.ok false
    | some board =>
      if countChar board 'K' ≠ 1 ∨ countChar board 'k' ≠ 1 then
        Except.ok false
      else do
        let castleOk ←
          if cr ≠ ['-'] then checkCastling cr board else pure true
        if ¬ castleOk then Except.ok false
        else if ep ≠ ['-'] then epCheck board ac ep
        else Except.ok true

/-- The field checks of `is_valid_fen` (fen.py lines 63-89): six
fields, then the per-field regex/string checks, then the semantic part. -/
def is_valid_fen_fields : List (List Char) → Except PyErr Bool
  | [pp, ac, cr, ep, hm, fm] =>
    if ¬ reMatchPlacement pp then Except.ok false
    else if ¬ (ac = ['w'] ∨ ac = ['b']) then Except.ok false
    else if cr ≠ ['-'] ∧ ¬ reMatchCastling cr then Except.ok false
    else if ep ≠ ['-'] ∧ ¬ reMatchEnPassant ep then Except.ok false
    else if ¬ pyIsDigitStr hm ∨ ¬ pyIsDigitStr fm then Except.ok false
    else is_valid_fen_semantic pp ac cr ep
  | _ => Except.ok false

/-- The body of the `try:` block of `is_valid_fen` (fen.py lines 62-157),
with every `return False` as `Except.ok false` and Python exceptions as
`Except.error`. -/
def is_valid_fen_inner (cs : List Char) : Except PyErr Bool :=
  is_valid_fen_fields (pySplitWS cs)

/-- `is_valid_fen` from `src/engine/fen.py`: the whole body runs inside
`try: ... except Exception: return False`. -/
def is_valid_fen (fen : String) : Bool :=
  match is_valid_fen_inner fen.data with
  | Except.ok b => b
  | Except.error _ => false

/-- `piece_from_fen` from `src/engine/fen.py`: like
`Piece.from_fen_symbol` but raising `InvalidFENError` on a bad symbol. -/
def piece_from_fen (fen_symbol : Char) : Except PyErr Piece :=
  let color := if pyIsUpper fen_symbol then PieceColor.WHITE else PieceColor.BLACK
  match FEN_PIECETYPE_MAP (pyToLower fen_symbol) with
  | some t => Except.ok ⟨t, color⟩
  | none =>
    Except.error
      (PyErr.invalidFEN (String.mk [fen_symbol])
        "Not a valid FEN symbol for a piece. Should be one of (p,r,n,b,q,k), upper or lowercase")

/-- The character walk of `board_from_fen` (fen.py lines 193-202):
`/` moves to the next row down, digits skip columns, anything else is
decoded by `piece_from_fen` and placed. No validation is performed. -/
def board_from_fen_loop :
    List Char → ChessBoard → Int → Int → Except PyErr ChessBoard
  | [], board, _, _ => Except.ok board
  | c :: rest, board, row, col =>
    if c = '/' then board_from_fen_loop rest board (row - 1) 0
    else if pyIsDigit c then board_from_fen_loop rest board row (col + digitVal c)
    else do
      let p ← piece_from_fen c
      let board' ← board.set_piece (some p) row col
      board_from_fen_loop rest board' row (col + 1)

/-- `board_from_fen` from `src/engine/fen.py`: builds a board from a
placement field "with the ASSUMPTION that it is valid". -/
def board_from_fen (piece_placement_fen : List Char) : Except PyErr ChessBoard :=
  board_from_fen_loop piece_placement_fen ⟨create_empty_squares⟩ 7 0

/-- The character walk of `ChessBoard.from_fen` (board.py lines 59-68):
identical to `board_from_fen_loop` except that pieces are decoded with
`Piece.from_fen_symbol`. -/
def ChessBoard.from_fen_loop :
    List Char → ChessBoard → Int → Int → Except PyErr ChessBoard
  | [], board, _, _ => Except.ok board
  | c :: rest, board, row, col =>
    if c = '/' then ChessBoard.from_fen_loop rest board (row - 1) 0
    else if pyIsDigit c then
      ChessBoard.from_fen_loop rest board row (col + digitVal c)
    else do
      let p ← Piece.from_fen_symbol c
      let board' ← board.set_piece (some p) row col
      ChessBoard.from_fen_loop rest board' row (col + 1)

/-- `ChessBoard.from_fen` from `src/engine/board.py`: walks
`fen.split()[0]` (Python `[0]` on the result of a whitespace split). -/
def ChessBoard.from_fen (fen : List Char) : Except PyErr ChessBoard := do
  let f ← pyGet (pySplitWS fen) 0
  ChessBoard.from_fen_loop f ⟨create_empty_squares⟩ 7 0

/-- `game_from_fen` from `src/engine/fen.py`: rejects with
`InvalidFENError(fen, "FEN cannot be used to create game")` when
`is_valid_fen` fails, then decodes the six fields of `fen.split(" ")`. -/
def game_from_fen (fen : String) : Except PyErr ChessGame :=
  if ¬ is_valid_fen fen then
    Except.error (PyErr.invalidFEN fen "FEN cannot be used to create game")
  else do
    let fields := pySplitSep ' ' fen.data
    let f0 ← pyGet fields 0
    let board ← board_from_fen f0
    let f1 ← pyGet fields 1
    let active_color :=
      if f1 = ['w'] then PieceColor.WHITE else PieceColor.BLACK
    let f2 ← pyGet fields 2
    let f3 ← pyGet fields 3
    let ep ←
      if f3 = ['-'] then pure none
      else do
        let sq ← squarename_to_index f3
        pure (some sq)
    let f4 ← pyGet fields 4
    let hm ← pyInt f4
    let f5 ← pyGet fields 5
    let fm ← pyInt f5
    return ⟨board, active_color, f2.contains 'K', f2.contains 'Q',
            f2.contains 'k', f2.contains 'q', ep, hm, fm⟩

/- ------------------------------------------------------------------
Lemmas about the Python list-indexing primitives
------------------------------------------------------------------ -/

theorem pyIndex_of_nonneg {n : Nat} {i : Int} (h0 : 0 ≤ i) (h1 : i < n) :
    pyIndex n i = some i.toNat := by
  have hni : ¬ i < 0 := not_lt.mpr h0
  rw [pyIndex, if_neg hni, if_pos h1]

theorem pyIndex_of_neg {n : Nat} {i : Int} (h0 : i < 0) (h1 : -(n : Int) ≤ i) :
    pyIndex n i = some (i + n).toNat := by
  rw [pyIndex, if_pos h0, if_pos h1]

theorem pyIndex_none {n : Nat} {i : Int}
    (h : i < -(n : Int) ∨ (n : Int) ≤ i) : pyIndex n i = none := by
  by_cases h0 : i < 0
  · rw [pyIndex, if_pos h0, if_neg (by omega)]
  · rw [pyIndex, if_neg h0, if_neg (by omega)]

theorem pyGet_ok {l : List α} {i : Int} (h0 : 0 ≤ i) (h1 : i < l.length) :
    pyGet l i = Except.ok (l.get ⟨i.toNat, by omega⟩) := by
  unfold pyGet
  rw [pyIndex_of_nonneg h0 h1]
  have hlt : i.toNat < l.length := by omega
  simp [List.get?_eq_getElem?, List.getElem?_eq_getElem hlt, List.get_eq_getElem]

theorem pyGet_ok_neg {l : List α} {i : Int} (h0 : i < 0)
    (h1 : -(l.length : Int) ≤ i) :
    pyGet l i = Except.ok (l.get ⟨(i + l.length).toNat, by omega⟩) := by
  unfold pyGet
  rw [pyIndex_of_neg h0 h1]
  have hlt : (i + l.length).toNat < l.length := by omega
  simp [List.get?_eq_getElem?, List.getElem?_eq_getElem hlt, List.get_eq_getElem]

theorem pyGet_error {l : List α} {i : Int}
    (h : i < -(l.length : Int) ∨ (l.length : Int) ≤ i) :
    pyGet l i = Except.error PyErr.indexError := by
  unfold pyGet
  rw [pyIndex_none h]

theorem pyGet_isOk_iff {l : List α} {i : Int} :
    (∃ v, pyGet l i = Except.ok v) ↔
      (-(l.length : Int) ≤ i ∧ i < l.length) := by
  constructor
  · rintro ⟨v, hv⟩
    by_contra hc
    rw [pyGet_error (by omega)] at hv
    exact Except.noConfusion hv
  · rintro ⟨h1, h2⟩
    by_cases h0 : 0 ≤ i
    · exact ⟨_, pyGet_ok h0 h2⟩
    · exact ⟨_, pyGet_ok_neg (by omega) h1⟩

theorem pySet_ok {l : List α} {i : Int} {a : α} (h0 : 0 ≤ i)
    (h1 : i < l.length) : pySet l i a = Except.ok (l.set i.toNat a) := by
  unfold pySet
  rw [pyIndex_of_nonneg h0 h1]

theorem pySet_ok_neg {l : List α} {i : Int} {a : α} (h0 : i < 0)
    (h1 : -(l.length : Int) ≤ i) :
    pySet l i a = Except.ok (l.set (i + l.length).toNat a) := by
  unfold pySet
  rw [pyIndex_of_neg h0 h1]

theorem pySet_error {l : List α} {i : Int} {a : α}
    (h : i < -(l.length : Int) ∨ (l.length : Int) ≤ i) :
    pySet l i a = Except.error PyErr.indexError := by
  unfold pySet
  rw [pyIndex_none h]

theorem pySet_isOk_iff {l : List α} {i : Int} {a : α} :
    (∃ l', pySet l i a = Except.ok l') ↔
      (-(l.length : Int) ≤ i ∧ i < l.length) := by
  constructor
  · rintro ⟨v, hv⟩
    by_contra hc
    rw [show pySet l i a = Except.error PyErr.indexError from pySet_error (by omega)] at hv
    exact Except.noConfusion hv
  · rintro ⟨h1, h2⟩
    by_cases h0 : 0 ≤ i
    · exact ⟨_, pySet_ok h0 h2⟩
    · exact ⟨_, pySet_ok_neg (by omega) h1⟩

/- ------------------------------------------------------------------
Board access characterization
------------------------------------------------------------------ -/

theorem ChessBoard.WF.row_length {b : ChessBoard} (wf : b.WF) {i : Nat}
    (h : i < b.squares.length) : (b.squares.get ⟨i, h⟩).length = 8 :=
  wf.2 _ (b.squares.get_mem _ _)

theorem get_square_ok_iff {b : ChessBoard} (wf : b.WF) {r c : Int} :
    (∃ v, b.get_square r c = Except.ok v) ↔
      (-8 ≤ r ∧ r ≤ 7 ∧ -8 ≤ c ∧ c ≤ 7) := by
  unfold ChessBoard.get_square
  constructor
  · rintro ⟨v, hv⟩
    simp only [bind, Except.bind] at hv
    rcases hr : pyGet b.squares r with e | row
    · rw [hr] at hv; exact Except.noConfusion hv
    · rw [hr] at hv
      have hrow : ∃ row, pyGet b.squares r = Except.ok row := ⟨row, hr⟩
      rw [pyGet_isOk_iff] at hrow
      have hcol : ∃ v, pyGet row c = Except.ok v := ⟨v, hv⟩
      rw [pyGet_isOk_iff] at hcol
      have hrl : row.length = 8 := by
        rcases hrow with ⟨h1, h2⟩
        by_cases h0 : 0 ≤ r
        · rw [pyGet_ok h0 (by omega)] at hr
          rw [← Except.ok.inj hr]
          exact wf.row_length _
        · rw [pyGet_ok_neg (by omega) (by omega)] at hr
          rw [← Except.ok.inj hr]
          exact wf.row_length _
      rw [wf.1] at hrow
      rw [hrl] at hcol
      omega
  · rintro ⟨h1, h2, h3, h4⟩
    have hrow : ∃ row, pyGet b.squares r = Except.ok row := by
      rw [pyGet_isOk_iff, wf.1]; constructor <;> omega
    rcases hrow with ⟨row, hr⟩
    have hrl : row.length = 8 := by
      by_cases h0 : 0 ≤ r
      · rw [pyGet_ok h0 (by rw [wf.1]; omega)] at hr
        rw [← Except.ok.inj hr]
        exact wf.row_length _
      · rw [pyGet_ok_neg (by omega) (by rw [wf.1]; omega)] at hr
        rw [← Except.ok.inj hr]
        exact wf.row_length _
    have hcol : ∃ v, pyGet row c = Except.ok v := by
      rw [pyGet_isOk_iff, hrl]; constructor <;> omega
    rcases hcol with ⟨v, hc⟩
    refine ⟨v, ?_⟩
    simp only [bind, Except.bind, hr, hc]

theorem get_square_eval {b : ChessBoard} (wf : b.WF) {r c : Int}
    (h0 : 0 ≤ r) (h1 : r < 8) (h2 : 0 ≤ c) (h3 : c < 8) :
    b.get_square r c =
      Except.ok ((b.squares.get ⟨r.toNat, by rw [wf.1]; omega⟩).get
        ⟨c.toNat, by rw [wf.row_length]; omega⟩) := by
  unfold ChessBoard.get_square
  rw [pyGet_ok h0 (by rw [wf.1]; omega)]
  simp only [bind, Except.bind]
  rw [pyGet_ok h2 (by rw [wf.row_length]; omega)]

theorem ebind_ok {α β : Type} (a : α) (f : α → Except PyErr β) :
    (Except.ok a >>= f) = f a := rfl

theorem ebind_error {α β : Type} (e : PyErr) (f : α → Except PyErr β) :
    ((Except.error e : Except PyErr α) >>= f) = Except.error e := rfl

theorem set_piece_ok_iff {b : ChessBoard} (wf : b.WF) {r c : Int}
    {p : Option Piece} :
    (∃ b', b.set_piece p r c = Except.ok b') ↔
      (-8 ≤ r ∧ r ≤ 7 ∧ -8 ≤ c ∧ c ≤ 7) := by
  unfold ChessBoard.set_piece
  constructor
  · rintro ⟨b', hb⟩
    rcases hr : pyGet b.squares r with e | row
    · rw [hr, ebind_error] at hb
      exact Except.noConfusion hb
    · rw [hr, ebind_ok] at hb
      have hrow : ∃ row, pyGet b.squares r = Except.ok row := ⟨row, hr⟩
      rw [pyGet_isOk_iff] at hrow
      have hrl : row.length = 8 := by
        rcases hrow with ⟨hA, hB⟩
        by_cases h0 : 0 ≤ r
        · rw [pyGet_ok h0 (by omega)] at hr
          rw [← Except.ok.inj hr]
          exact wf.row_length _
        · rw [pyGet_ok_neg (by omega) (by omega)] at hr
          rw [← Except.ok.inj hr]
          exact wf.row_length _
      rcases hc : pySet row c p with e | row'
      · rw [hc, ebind_error] at hb
        exact Except.noConfusion hb
      · have hcol : ∃ l', pySet row c p = Except.ok l' := ⟨row', hc⟩
        rw [pySet_isOk_iff] at hcol
        rw [wf.1] at hrow
        rw [hrl] at hcol
        omega
  · rintro ⟨hA, hB, hC, hD⟩
    have hrow : ∃ row, pyGet b.squares r = Except.ok row := by
      rw [pyGet_isOk_iff, wf.1]; constructor <;> omega
    rcases hrow with ⟨row, hr⟩
    have hrl : row.length = 8 := by
      by_cases h0 : 0 ≤ r
      · rw [pyGet_ok h0 (by rw [wf.1]; omega)] at hr
        rw [← Except.ok.inj hr]
        exact wf.row_length _
      · rw [pyGet_ok_neg (by omega) (by rw [wf.1]; omega)] at hr
        rw [← Except.ok.inj hr]
        exact wf.row_length _
    have hcol : ∃ l', pySet row c p = Except.ok l' := by
      rw [pySet_isOk_iff, hrl]; constructor <;> omega
    rcases hcol with ⟨row', hc⟩
    have hsq : ∃ sq, pySet b.squares r row' = Except.ok sq := by
      rw [pySet_isOk_iff, wf.1]; constructor <;> omega
    rcases hsq with ⟨sq, hs⟩
    refine ⟨⟨sq⟩, ?_⟩
    rw [hr, ebind_ok, hc, ebind_ok, hs, ebind_ok]
    rfl

theorem get_set_self {l : List α} {i : Nat} {a : α}
    (h : i < (l.set i a).length) : (l.set i a).get ⟨i, h⟩ = a := by
  simp [List.get_eq_getElem]

theorem get_set_ne {l : List α} {i j : Nat} (hne : i ≠ j) {a : α}
    (h : j < (l.set i a).length) (h2 : j < l.length) :
    (l.set i a).get ⟨j, h⟩ = l.get ⟨j, h2⟩ := by
  simp [List.get_eq_getElem, List.getElem_set_ne hne]

theorem set_piece_frame {b : ChessBoard} (wf : b.WF) {row col : Int}
    (h0 : 0 ≤ row) (h1 : row < 8) (h2 : 0 ≤ col) (h3 : col < 8)
    (p : Option Piece) :
    ∃ b', b.set_piece p row col = Except.ok b' ∧ b'.WF ∧
      b'.get_square row col = Except.ok p ∧
      (∀ r c : Int, 0 ≤ r → r < 8 → 0 ≤ c → c < 8 → ¬(r = row ∧ c = col) →
        b'.get_square r c = b.get_square r c) := by
  have hrl : row.toNat < b.squares.length := by rw [wf.1]; omega
  have hrowlen : (b.squares.get ⟨row.toNat, hrl⟩).length = 8 := wf.row_length _
  have hsetlen : (b.squares.set row.toNat
      ((b.squares.get ⟨row.toNat, hrl⟩).set col.toNat p)).length = 8 := by
    rw [List.length_set, wf.1]
  refine ⟨⟨b.squares.set row.toNat
      ((b.squares.get ⟨row.toNat, hrl⟩).set col.toNat p)⟩, ?_, ?_, ?_, ?_⟩
  · unfold ChessBoard.set_piece
    rw [pyGet_ok h0 (by omega), ebind_ok]
    rw [pySet_ok h2 (by rw [hrowlen]; omega), ebind_ok]
    rw [pySet_ok h0 (by rw [wf.1]; omega), ebind_ok]
    rfl
  · constructor
    · exact hsetlen
    · intro r hmem
      rcases List.mem_or_eq_of_mem_set hmem with h | h
      · exact wf.2 _ h
      · rw [h, List.length_set]
        exact hrowlen
  · unfold ChessBoard.get_square
    rw [pyGet_ok h0 (by rw [hsetlen]; omega), ebind_ok]
    rw [get_set_self]
    rw [pyGet_ok h2 (by rw [List.length_set, hrowlen]; omega)]
    rw [get_set_self]
  · intro r c hr0 hr1 hc0 hc1 hne
    unfold ChessBoard.get_square
    rw [pyGet_ok hr0 (by rw [hsetlen]; omega), ebind_ok]
    rw [pyGet_ok hr0 (by rw [wf.1]; omega), ebind_ok]
    by_cases hrr : r = row
    · subst hrr
      have hcc : c ≠ col := fun h => hne ⟨rfl, h⟩
      rw [get_set_self]
      rw [pyGet_ok hc0 (by rw [List.length_set, hrowlen]; omega)]
      rw [pyGet_ok hc0 (by rw [hrowlen]; omega)]
      rw [get_set_ne (by omega) _ (by rw [hrowlen]; omega)]
    · have hne2 : row.toNat ≠ r.toNat := by omega
      rw [get_set_ne hne2 _ (by rw [wf.1]; omega)]

/-- The default board is well-formed. -/
theorem default_WF : ChessBoard.default.WF :=
  ⟨rfl, fun _ h => by rw [List.eq_of_mem_replicate h]; rfl⟩

/-- Claim C7: for every (row, col) in [0,7]×[0,7] the square codec
round-trips: `squarename_to_index (index_to_squarename row col) = (row,
col)`; the emitted file letter is lowercase; and the decoder also
accepts an uppercase file letter, so "A1" decodes to (0, 0). -/
theorem C7_squarename_roundtrip :
    (∀ row col : Int, 0 ≤ row → row ≤ 7 → 0 ≤ col → col ≤ 7 →
      ∃ f r, index_to_squarename row col = Except.ok [f, r] ∧
        squarename_to_index [f, r] = Except.ok (row, col) ∧
        f.isLower = true) ∧
    squarename_to_index "A1".data = Except.ok (0, 0) := by
  refine ⟨?_, by rfl⟩
  intro row col h0 h1 h2 h3
  interval_cases row <;> interval_cases col <;> exact ⟨_, _, rfl, rfl, rfl⟩

/-- Witness for C7 at (3, 4). -/
theorem C7_squarename_roundtrip_witness :
    ∃ f r, index_to_squarename 3 4 = Except.ok [f, r] ∧
      squarename_to_index [f, r] = Except.ok (3, 4) ∧ f.isLower = true :=
  C7_squarename_roundtrip.1 3 4 (by decide) (by decide) (by decide) (by decide)

/-- Counterexample to claim C4 as stated: the row index -1 is outside
[0,7], yet `get_square` and `set_piece` on the default board succeed
(Python's negative-index wrapping) instead of failing with an
out-of-bounds error. -/
theorem C4_counterexample :
    ((-1 : Int) < 0 ∨ 7 < (-1 : Int)) ∧
    ChessBoard.default.get_square (-1) 0 = Except.ok none ∧
    ChessBoard.default.set_piece none (-1) 0 = Except.ok ChessBoard.default :=
  ⟨Or.inl (by decide), by rfl, by rfl⟩

/-- Claim C4 (amended): on a well-formed board, `get_square` and
`set_piece` succeed exactly when both indices lie in [-8,7] (Python
negative indices wrap from the end) and raise `IndexError` otherwise;
for indices in [0,7] they address the literal square, `get_square` is
pure, and `set_piece` changes only the addressed square. -/
theorem C4_board_access :
    ∀ (b : ChessBoard), b.WF → ∀ row col : Int,
      ((∃ v, b.get_square row col = Except.ok v) ↔
        (-8 ≤ row ∧ row ≤ 7 ∧ -8 ≤ col ∧ col ≤ 7)) ∧
      (∀ p, (∃ b', b.set_piece p row col = Except.ok b') ↔
        (-8 ≤ row ∧ row ≤ 7 ∧ -8 ≤ col ∧ col ≤ 7)) ∧
      (0 ≤ row → row ≤ 7 → 0 ≤ col → col ≤ 7 → ∀ p,
        ∃ b', b.set_piece p row col = Except.ok b' ∧ b'.WF ∧
          b'.get_square row col = Except.ok p ∧
          ∀ r c : Int, 0 ≤ r → r ≤ 7 → 0 ≤ c → c ≤ 7 →
            ¬(r = row ∧ c = col) → b'.get_square r c = b.get_square r c) := by
  intro b wf row col
  refine ⟨get_square_ok_iff wf, fun p => set_piece_ok_iff wf, ?_⟩
  intro h0 h1 h2 h3 p
  obtain ⟨b', hset, hwf, hget, hframe⟩ :=
    set_piece_frame wf h0 (by omega) h2 (by omega) p
  exact ⟨b', hset, hwf, hget,
    fun r c a1 a2 a3 a4 a5 => hframe r c a1 (by omega) a3 (by omega) a5⟩

/-- Witness for C4 (amended) at the default board and square (0, 0). -/
theorem C4_board_access_witness :
    ∃ v, ChessBoard.default.get_square 0 0 = Except.ok v :=
  (C4_board_access ChessBoard.default default_WF 0 0).1.mpr
    (by refine ⟨by decide, by decide, by decide, by decide⟩)

/-- Claim C8: `move_piece` with an empty source square is a no-op; with
a piece on the source square, the destination square afterwards holds
that piece, the source square still holds its prior piece (it is not
cleared), and every square other than the destination is unchanged. -/
theorem C8_move_piece_spec :
    ∀ (b : ChessBoard), b.WF →
    ∀ sr sc er ec : Int, 0 ≤ sr → sr ≤ 7 → 0 ≤ sc → sc ≤ 7 →
      0 ≤ er → er ≤ 7 → 0 ≤ ec → ec ≤ 7 →
      (b.get_square sr sc = Except.ok none →
        b.move_piece sr sc er ec = Except.ok b) ∧
      (∀ p : Piece, b.get_square sr sc = Except.ok (some p) →
        ∃ b', b.move_piece sr sc er ec = Except.ok b' ∧
          b'.get_square er ec = Except.ok (some p) ∧
          b'.get_square sr sc = Except.ok (some p) ∧
          ∀ r c : Int, 0 ≤ r → r ≤ 7 → 0 ≤ c → c ≤ 7 →
            ¬(r = er ∧ c = ec) → b'.get_square r c = b.get_square r c) := by
  intro b wf sr sc er ec hs0 hs1 hs2 hs3 he0 he1 he2 he3
  have hseval := get_square_eval wf hs0 (by omega) hs2 (by omega)
  constructor
  · intro hempty
    rw [hseval] at hempty
    have hcell := Except.ok.inj hempty
    unfold ChessBoard.move_piece
    rw [pyGet_ok hs0 (by rw [wf.1]; omega), ebind_ok]
    rw [pyGet_ok hs2 (by rw [wf.row_length]; omega), ebind_ok]
    rw [hcell]
    rfl
  · intro p hsome
    rw [hseval] at hsome
    have hcell := Except.ok.inj hsome
    obtain ⟨b', hset, hwf', hget, hframe⟩ :=
      set_piece_frame wf he0 (by omega) he2 (by omega) (some p)
    refine ⟨b', ?_, hget, ?_,
      fun r c a1 a2 a3 a4 a5 => hframe r c a1 (by omega) a3 (by omega) a5⟩
    · unfold ChessBoard.move_piece
      rw [pyGet_ok hs0 (by rw [wf.1]; omega), ebind_ok]
      rw [pyGet_ok hs2 (by rw [wf.row_length]; omega), ebind_ok]
      rw [hcell]
      exact hset
    · by_cases heq : sr = er ∧ sc = ec
      · rw [heq.1, heq.2]
        exact hget
      · rw [hframe sr sc hs0 (by omega) hs2 (by omega) heq]
        rw [hseval, hcell]

/-- Witness for C8: on the default (empty) board, moving from (0,0) to
(7,7) is a no-op. -/
theorem C8_move_piece_spec_witness :
    ChessBoard.default.get_square 0 0 = Except.ok none ∧
    ChessBoard.default.move_piece 0 0 7 7 = Except.ok ChessBoard.default := by
  refine ⟨by rfl, ?_⟩
  exact (C8_move_piece_spec ChessBoard.default default_WF 0 0 7 7
    (by decide) (by decide) (by decide) (by decide)
    (by decide) (by decide) (by decide) (by decide)).1 (by rfl)

/- ------------------------------------------------------------------
The validator never raises: lemmas for C9
------------------------------------------------------------------ -/

/-- An 8×8 grid. -/
def grid8 (l : List (List α)) : Prop :=
  l.length = 8 ∧ ∀ row ∈ l, row.length = 8

theorem grid8_row_length {l : List (List α)} (h : grid8 l) {i : Nat}
    (hi : i < l.length) : (l.get ⟨i, hi⟩).length = 8 :=
  h.2 _ (l.get_mem _ _)

theorem grid8_set {l : List (List α)} (h : grid8 l) {i : Nat}
    {row : List α} (hrow : row.length = 8) : grid8 (l.set i row) := by
  refine ⟨by rw [List.length_set, h.1], fun r hm => ?_⟩
  rcases List.mem_or_eq_of_mem_set hm with hm | hm
  · exact h.2 _ hm
  · rw [hm]; exact hrow

theorem grid8_replicate {x : α} : grid8 (List.replicate 8 (List.replicate 8 x)) :=
  ⟨by simp, fun r hm => by rw [List.eq_of_mem_replicate hm]; simp⟩

theorem grid8_emptyCharBoard : grid8 emptyCharBoard := grid8_replicate

/-- The post-condition carried through `placeRank`: when the scan
continues, the board is still 8×8 and the column non-negative. -/
def rankResOk : Option (List (List (Option Char)) × Int) → Prop
  | none => True
  | some (b2, col2) => grid8 b2 ∧ 0 ≤ col2

theorem placeRank_no_error :
    ∀ (chars : List Char) (board : List (List (Option Char)))
      (boardRow col : Int), grid8 board → 0 ≤ boardRow → boardRow < 8 →
      0 ≤ col →
      ∃ res, placeRank chars board boardRow col = Except.ok res ∧
        rankResOk res := by
  intro chars
  induction chars with
  | nil =>
    intro board boardRow col hg h0 h1 h2
    exact ⟨some (board, col), rfl, hg, h2⟩
  | cons ch rest ih =>
    intro board boardRow col hg h0 h1 h2
    simp only [placeRank]
    by_cases hd : pyIsDigit ch
    · simp only [hd, if_true]
      exact ih board boardRow _ hg h0 h1 (by omega)
    · simp only [hd, Bool.false_eq_true, if_false]
      by_cases hp : "prnbqkPRNBQK".data.contains ch
      · simp only [hp, if_true]
        by_cases hcol : (8 : Int) ≤ col
        · simp only [hcol, if_true]
          exact ⟨none, rfl, trivial⟩
        · simp only [hcol, if_false]
          rw [pyGet_ok h0 (by rw [hg.1]; omega), ebind_ok]
          rw [pySet_ok h2 (by rw [grid8_row_length hg]; omega), ebind_ok]
          rw [pySet_ok h0 (by rw [hg.1]; omega), ebind_ok]
          exact ih _ boardRow (col + 1)
            (grid8_set hg (by rw [List.length_set]; exact grid8_row_length hg _))
            h0 h1 (by omega)
      · simp only [hp, Bool.false_eq_true, if_false]
        exact ⟨none, rfl, trivial⟩

theorem placeRanks_no_error :
    ∀ (rows : List (List Char)) (board : List (List (Option Char)))
      (fri : Int), grid8 board → 0 ≤ fri → fri + rows.length ≤ 8 →
      ∃ res, placeRanks rows board fri = Except.ok res ∧
        (∀ b2, res = some b2 → grid8 b2) := by
  intro rows
  induction rows with
  | nil =>
    intro board fri hg h0 h1
    exact ⟨some board, rfl, fun b2 h => Option.some.inj h ▸ hg⟩
  | cons row rest ih =>
    intro board fri hg h0 h1
    have h1' : fri + ((rest.length : Int) + 1) ≤ 8 := by
      simpa [List.length_cons] using h1
    simp only [placeRanks]
    obtain ⟨res, hres, hpost⟩ :=
      placeRank_no_error row board (7 - fri) 0 hg (by omega) (by omega)
        le_rfl
    rw [hres, ebind_ok]
    rcases res with _ | ⟨b1, col⟩
    · exact ⟨none, rfl, fun b2 h => by cases h⟩
    · obtain ⟨hgb1, hcol⟩ := hpost
      by_cases hc8 : col ≠ 8
      · refine ⟨none, ?_, fun b2 h => by cases h⟩
        show (if col ≠ 8 then Except.ok none
          else placeRanks rest b1 (fri + 1)) = Except.ok none
        rw [if_pos hc8]
      · obtain ⟨res2, hres2, hpost2⟩ := ih b1 (fri + 1) hgb1 (by omega) (by omega)
        refine ⟨res2, ?_, hpost2⟩
        show (if col ≠ 8 then Except.ok none
          else placeRanks rest b1 (fri + 1)) = Except.ok res2
        rw [if_neg hc8]
        exact hres2

theorem bind_ok_exists {α β : Type} {x : Except PyErr α}
    {f : α → Except PyErr β} (hx : ∃ a, x = Except.ok a)
    (hf : ∀ a, x = Except.ok a → ∃ b, f a = Except.ok b) :
    ∃ b, (x >>= f) = Except.ok b := by
  obtain ⟨a, ha⟩ := hx
  obtain ⟨b, hb⟩ := hf a ha
  exact ⟨b, by rw [ha, ebind_ok, hb]⟩

theorem ite_ok_exists {β : Type} {C : Prop} [Decidable C]
    {x y : Except PyErr β} (hx : ∃ b, x = Except.ok b)
    (hy : ∃ b, y = Except.ok b) :
    ∃ b, (if C then x else y) = Except.ok b := by
  by_cases h : C
  · rw [if_pos h]; exact hx
  · rw [if_neg h]; exact hy

theorem pyGet_ok_length {l : List (List α)} {i : Int} {row : List α}
    (hg : grid8 l) (h : pyGet l i = Except.ok row) : row.length = 8 := by
  rcases pyGet_isOk_iff.mp ⟨row, h⟩ with ⟨h1, h2⟩
  by_cases h0 : 0 ≤ i
  · rw [pyGet_ok h0 h2] at h
    rw [← Except.ok.inj h]
    exact grid8_row_length hg _
  · rw [pyGet_ok_neg (by omega) h1] at h
    rw [← Except.ok.inj h]
    exact grid8_row_length hg _

theorem checkCastling_no_error :
    ∀ (flags : List Char) (board : List (List (Option Char))),
      grid8 board → ∃ b, checkCastling flags board = Except.ok b := by
  intro flags
  induction flags with
  | nil => exact fun board hg => ⟨true, rfl⟩
  | cons flag rest ih =>
    intro board hg
    simp only [checkCastling]
    by_cases hf : "KQkq".data.contains flag
    · rw [if_neg (not_not_intro hf)]
      have hf4 : flag = 'K' ∨ flag = 'Q' ∨ flag = 'k' ∨ flag = 'q' := by
        have h' := hf
        simp [List.contains] at h'
        tauto
      rcases hf4 with rfl | rfl | rfl | rfl <;>
      · simp only [king_positions, rook_positions, ebind_ok]
        refine bind_ok_exists
          ⟨_, pyGet_ok (by norm_num) (by rw [hg.1]; norm_num)⟩ ?_
        intro krow hkrow
        have hkl : krow.length = 8 := pyGet_ok_length hg hkrow
        refine bind_ok_exists
          ⟨_, pyGet_ok (by norm_num) (by rw [hkl]; norm_num)⟩ ?_
        intro kcell hkcell
        refine bind_ok_exists
          ⟨_, pyGet_ok (by norm_num) (by rw [hg.1]; norm_num)⟩ ?_
        intro rrow hrrow
        have hrl : rrow.length = 8 := pyGet_ok_length hg hrrow
        refine bind_ok_exists
          ⟨_, pyGet_ok (by norm_num) (by rw [hrl]; norm_num)⟩ ?_
        intro rcell hrcell
        exact ite_ok_exists ⟨false, rfl⟩ (ih board hg)
    · rw [if_pos (by simpa using hf)]
      exact ⟨false, rfl⟩

theorem epCheck_no_error (board : List (List (Option Char)))
    (ac ep : List Char) (hg : grid8 board)
    (hre : reMatchEnPassant ep = true) :
    ∃ b, epCheck board ac ep = Except.ok b := by
  rcases ep with _ | ⟨f, ep1⟩
  · simp [reMatchEnPassant] at hre
  rcases ep1 with _ | ⟨r, ep2⟩
  · simp [reMatchEnPassant] at hre
  rcases ep2 with _ | ⟨x, ep3⟩
  case cons.cons.cons => simp [reMatchEnPassant] at hre
  have hre' : ((97 ≤ f.toNat ∧ f.toNat ≤ 104) ∧ (r = '3' ∨ r = '6')) := by
    simpa [reMatchEnPassant, Bool.and_eq_true, Bool.or_eq_true,
      decide_eq_true_eq] using hre
  obtain ⟨⟨hf1, hf2⟩, hr36⟩ := hre'
  unfold epCheck
  rw [show pyGet [f, r] (0 : Int) = Except.ok f from rfl, ebind_ok]
  rw [show pyGet [f, r] (1 : Int) = Except.ok r from rfl, ebind_ok]
  rcases hr36 with rfl | rfl
  · rw [show pyInt ['3'] = Except.ok 3 from rfl, ebind_ok]
    by_cases hw : ac = ['w']
    · rw [if_pos hw, if_pos (by norm_num : (3 : Int) ≠ 6)]
      exact ⟨false, rfl⟩
    · rw [if_neg hw]
      by_cases hb : ac = ['b']
      · rw [if_pos hb, if_neg (by norm_num : ¬ (3 : Int) ≠ 3)]
        refine bind_ok_exists
          ⟨_, pyGet_ok (by norm_num) (by rw [hg.1]; norm_num)⟩ ?_
        intro row1 hrow1
        have hl : row1.length = 8 := pyGet_ok_length hg hrow1
        refine bind_ok_exists
          ⟨_, pyGet_ok (by omega) (by rw [hl]; omega)⟩ ?_
        intro cell hcell
        exact ⟨_, rfl⟩
      · rw [if_neg hb]
        exact ⟨false, rfl⟩
  · rw [show pyInt ['6'] = Except.ok 6 from rfl, ebind_ok]
    by_cases hw : ac = ['w']
    · rw [if_pos hw, if_neg (by norm_num : ¬ (6 : Int) ≠ 6)]
      refine bind_ok_exists
        ⟨_, pyGet_ok (by norm_num) (by rw [hg.1]; norm_num)⟩ ?_
      intro row1 hrow1
      have hl : row1.length = 8 := pyGet_ok_length hg hrow1
      refine bind_ok_exists
        ⟨_, pyGet_ok (by omega) (by rw [hl]; omega)⟩ ?_
      intro cell hcell
      exact ⟨_, rfl⟩
    · rw [if_neg hw]
      by_cases hb : ac = ['b']
      · rw [if_pos hb, if_pos (by norm_num : (6 : Int) ≠ 3)]
        exact ⟨false, rfl⟩
      · rw [if_neg hb]
        exact ⟨false, rfl⟩

theorem semantic_no_error (pp ac cr ep : List Char)
    (hep : ep ≠ ['-'] → reMatchEnPassant ep = true) :
    ∃ b, is_valid_fen_semantic pp ac cr ep = Except.ok b := by
  simp only [is_valid_fen_semantic]
  by_cases hlen : (pySplitSep '/' pp).length ≠ 8
  · rw [if_pos hlen]
    exact ⟨false, rfl⟩
  · rw [if_neg hlen]
    have hlen8 : ((pySplitSep '/' pp).length : Int) = 8 := by omega
    obtain ⟨res, hres, hpost⟩ :=
      placeRanks_no_error (pySplitSep '/' pp) emptyCharBoard 0
        grid8_emptyCharBoard le_rfl (by omega)
    rw [hres, ebind_ok]
    rcases res with _ | board
    · exact ⟨false, rfl⟩
    · have hgb : grid8 board := hpost board rfl
      show ∃ b, (if countChar board 'K' ≠ 1 ∨ countChar board 'k' ≠ 1 then
          Except.ok false
        else do
          let castleOk ←
            if cr ≠ ['-'] then checkCastling cr board else pure true
          if ¬ castleOk then Except.ok false
          else if ep ≠ ['-'] then epCheck board ac ep
          else Except.ok true) = Except.ok b
      refine ite_ok_exists ⟨false, rfl⟩ ?_
      refine ite_ok_exists ?_ ?_
      · refine bind_ok_exists (checkCastling_no_error cr board hgb) ?_
        intro castleOk hc
        refine ite_ok_exists ⟨false, rfl⟩ ?_
        by_cases hepd : ep ≠ ['-']
        · rw [if_pos hepd]
          exact epCheck_no_error board ac ep hgb (hep hepd)
        · rw [if_neg hepd]
          exact ⟨true, rfl⟩
      · refine bind_ok_exists ⟨true, rfl⟩ ?_
        intro castleOk hc
        refine ite_ok_exists ⟨false, rfl⟩ ?_
        by_cases hepd : ep ≠ ['-']
        · rw [if_pos hepd]
          exact epCheck_no_error board ac ep hgb (hep hepd)
        · rw [if_neg hepd]
          exact ⟨true, rfl⟩

theorem fields_no_error (parts : List (List Char)) :
    ∃ b, is_valid_fen_fields parts = Except.ok b := by
  rcases parts with _ | ⟨pp, _ | ⟨ac, _ | ⟨cr, _ | ⟨ep, _ | ⟨hm, _ | ⟨fm, _ | rest⟩⟩⟩⟩⟩⟩ <;>
    simp only [is_valid_fen_fields] <;>
    try exact ⟨false, rfl⟩
  refine ite_ok_exists ⟨false, rfl⟩ ?_
  refine ite_ok_exists ⟨false, rfl⟩ ?_
  refine ite_ok_exists ⟨false, rfl⟩ ?_
  by_cases hep : ep ≠ ['-'] ∧ ¬ reMatchEnPassant ep
  · rw [if_pos hep]
    exact ⟨false, rfl⟩
  · rw [if_neg hep]
    refine ite_ok_exists ⟨false, rfl⟩ ?_
    refine semantic_no_error pp ac cr ep ?_
    intro hd
    by_cases hm2 : reMatchEnPassant ep
    · exact hm2
    · exact absurd ⟨hd, hm2⟩ hep

/-- Claim C9: `is_valid_fen` is total: on every input string the
embedded `try:` body runs to completion without a Python exception, and
`is_valid_fen` returns exactly its boolean result (so the
`except Exception: return False` handler never converts an internal
error, and the function never raises). -/
theorem C9_is_valid_fen_total :
    ∀ fen : String, ∃ b : Bool,
      is_valid_fen_inner fen.data = Except.ok b ∧ is_valid_fen fen = b := by
  intro fen
  obtain ⟨b, hb⟩ := fields_no_error (pySplitWS fen.data)
  refine ⟨b, hb, ?_⟩
  unfold is_valid_fen is_valid_fen_inner
  rw [show is_valid_fen_fields (pySplitWS fen.data) = Except.ok b from hb]

/- ------------------------------------------------------------------
Inversion of the accepted placement grammar: lemmas for C6 and C3
------------------------------------------------------------------ -/

/-- Running file-count of a rank as the spec describes it: each digit
adds its numeric value, each piece letter adds 1. -/
def rankSum (cs : List Char) : Nat :=
  (cs.map (fun c => if pyIsDigit c then digitVal c else 1)).sum

/-- Grammar of one placement rank, transcribed from the claim: every
character is a digit in 1-8 or a letter of "pnbrqkPNBRQK", and the
running file-count ends at exactly 8. -/
def isRankChar (c : Char) : Bool :=
  (49 ≤ c.toNat && c.toNat ≤ 56) || "pnbrqkPNBRQK".data.contains c

def rankOk (cs : List Char) : Bool :=
  cs.all isRankChar && (rankSum cs = 8)

theorem placeRank_some_facts :
    ∀ (chars : List Char) (board : List (List (Option Char)))
      (boardRow col : Int) (b2 : List (List (Option Char))) (col2 : Int),
      placeRank chars board boardRow col = Except.ok (some (b2, col2)) →
      (∀ c ∈ chars,
        pyIsDigit c = true ∨ "prnbqkPRNBQK".data.contains c = true) ∧
      col2 = col + rankSum chars := by
  intro chars
  induction chars with
  | nil =>
    intro board br col b2 col2 h
    simp only [placeRank] at h
    have h2 := Option.some.inj (Except.ok.inj h)
    refine ⟨fun c hc => absurd hc (List.not_mem_nil c), ?_⟩
    have h3 : col = col2 := congrArg Prod.snd h2
    have h4 : rankSum ([] : List Char) = 0 := rfl
    omega
  | cons ch rest ih =>
    intro board br col b2 col2 h
    simp only [placeRank] at h
    by_cases hd : pyIsDigit ch = true
    · rw [if_pos hd] at h
      obtain ⟨hmem, hsum⟩ := ih board br _ b2 col2 h
      refine ⟨?_, ?_⟩
      · intro c hc
        rcases List.mem_cons.mp hc with rfl | hc
        · exact Or.inl hd
        · exact hmem c hc
      · have hrs : rankSum (ch :: rest) = digitVal ch + rankSum rest := by
          simp [rankSum, hd]
        rw [hrs, hsum]
        push_cast
        ring
    · rw [if_neg hd] at h
      by_cases hp : "prnbqkPRNBQK".data.contains ch = true
      · rw [if_pos hp] at h
        by_cases hcol : (8 : Int) ≤ col
        · rw [if_pos hcol] at h
          exact Option.noConfusion (Except.ok.inj h)
        · rw [if_neg hcol] at h
          rcases hg1 : pyGet board br with e | rowl
          · rw [hg1, ebind_error] at h
            exact Except.noConfusion h
          rw [hg1, ebind_ok] at h
          try simp only [] at h
          rcases hg2 : pySet rowl col (some ch) with e | rowl2
          · rw [hg2, ebind_error] at h
            exact Except.noConfusion h
          rw [hg2, ebind_ok] at h
          try simp only [] at h
          rcases hg3 : pySet board br rowl2 with e | board2
          · rw [hg3, ebind_error] at h
            exact Except.noConfusion h
          rw [hg3, ebind_ok] at h
          try simp only [] at h
          obtain ⟨hmem, hsum⟩ := ih board2 br (col + 1) b2 col2 h
          refine ⟨?_, ?_⟩
          · intro c hc
            rcases List.mem_cons.mp hc with rfl | hc
            · exact Or.inr hp
            · exact hmem c hc
          · have hrs : rankSum (ch :: rest) = 1 + rankSum rest := by
              simp [rankSum, hd]
            rw [hrs, hsum]
            push_cast
            ring
      · rw [if_neg hp] at h
        exact Option.noConfusion (Except.ok.inj h)

theorem placeRanks_some_ranks :
    ∀ (rows : List (List Char)) (board : List (List (Option Char)))
      (fri : Int) (b2 : List (List (Option Char))),
      placeRanks rows board fri = Except.ok (some b2) →
      ∀ rank ∈ rows, ∃ b0 br b1,
        placeRank rank b0 br 0 = Except.ok (some (b1, 8)) := by
  intro rows
  induction rows with
  | nil =>
    intro board fri b2 h rank hr
    cases hr
  | cons row rest ih =>
    intro board fri b2 h rank hr
    simp only [placeRanks] at h
    rcases hp : placeRank row board (7 - fri) 0 with e | res
    · rw [hp, ebind_error] at h
      exact Except.noConfusion h
    rcases res with _ | ⟨b1, col⟩
    · rw [hp, ebind_ok] at h
      try simp only [] at h
      exact Option.noConfusion (Except.ok.inj h)
    · rw [hp, ebind_ok] at h
      try simp only [] at h
      by_cases hc8 : col ≠ 8
      · rw [if_pos hc8] at h
        exact Option.noConfusion (Except.ok.inj h)
      · rw [if_neg hc8] at h
        have hcol : col = 8 := by omega
        subst hcol
        rcases List.mem_cons.mp hr with rfl | hr
        · exact ⟨board, 7 - fri, b1, hp⟩
        · exact ih b1 (fri + 1) b2 h rank hr

theorem pySplitSepAux_mem {sep : Char} :
    ∀ (cs acc : List Char), (∀ a ∈ acc, a ≠ sep) →
      ∀ rank ∈ pySplitSepAux sep cs acc, ∀ c ∈ rank,
        (c ∈ cs ∨ c ∈ acc) ∧ c ≠ sep := by
  intro cs
  induction cs with
  | nil =>
    intro acc hacc rank hr c hc
    simp only [pySplitSepAux] at hr
    rcases List.mem_singleton.mp hr with rfl
    have hca := List.mem_reverse.mp hc
    exact ⟨Or.inr hca, hacc c hca⟩
  | cons d cs ih =>
    intro acc hacc rank hr c hc
    simp only [pySplitSepAux] at hr
    by_cases hd : d = sep
    · rw [if_pos hd] at hr
      rcases List.mem_cons.mp hr with rfl | hr
      · have hca := List.mem_reverse.mp hc
        exact ⟨Or.inr hca, hacc c hca⟩
      · obtain ⟨hin, hne⟩ := ih [] (by simp) rank hr c hc
        rcases hin with hin | hin
        · exact ⟨Or.inl (List.mem_cons_of_mem _ hin), hne⟩
        · cases hin
    · rw [if_neg hd] at hr
      have hacc2 : ∀ a ∈ d :: acc, a ≠ sep := by
        intro a ha
        rcases List.mem_cons.mp ha with rfl | ha
        · exact hd
        · exact hacc a ha
      obtain ⟨hin, hne⟩ := ih (d :: acc) hacc2 rank hr c hc
      rcases hin with hin | hin
      · exact ⟨Or.inl (List.mem_cons_of_mem _ hin), hne⟩
      · rcases List.mem_cons.mp hin with rfl | hin
        · exact ⟨Or.inl (List.mem_cons_self _ _), hne⟩
        · exact ⟨Or.inr hin, hne⟩

theorem mem_pySplitSep {sep : Char} {cs rank : List Char} {c : Char}
    (hr : rank ∈ pySplitSep sep cs) (hc : c ∈ rank) : c ∈ cs ∧ c ≠ sep := by
  obtain ⟨hin, hne⟩ := pySplitSepAux_mem cs [] (by simp) rank hr c hc
  rcases hin with hin | hin
  · exact ⟨hin, hne⟩
  · cases hin

theorem piece_letters_iff (c : Char) :
    "prnbqkPRNBQK".data.contains c = true ↔
      "pnbrqkPNBRQK".data.contains c = true := by
  constructor <;> intro h <;>
  · simp [List.contains] at h ⊢
    tauto

theorem fields_true_inv {pp ac cr ep hm fm : List Char}
    (h : is_valid_fen_fields [pp, ac, cr, ep, hm, fm] = Except.ok true) :
    reMatchPlacement pp = true ∧ (ac = ['w'] ∨ ac = ['b']) ∧
    pyIsDigitStr hm = true ∧ pyIsDigitStr fm = true ∧
    (pySplitSep '/' pp).length = 8 ∧
    ∃ board, placeRanks (pySplitSep '/' pp) emptyCharBoard 0 =
      Except.ok (some board) := by
  simp only [is_valid_fen_fields] at h
  by_cases h1 : reMatchPlacement pp = true
  case neg =>
    rw [if_pos h1] at h
    exact Bool.noConfusion (Except.ok.inj h)
  rw [if_neg (not_not_intro h1)] at h
  by_cases h2 : ac = ['w'] ∨ ac = ['b']
  case neg =>
    rw [if_pos h2] at h
    exact Bool.noConfusion (Except.ok.inj h)
  rw [if_neg (not_not_intro h2)] at h
  by_cases h3 : cr ≠ ['-'] ∧ ¬ reMatchCastling cr
  case pos =>
    rw [if_pos h3] at h
    exact Bool.noConfusion (Except.ok.inj h)
  rw [if_neg h3] at h
  by_cases h4 : ep ≠ ['-'] ∧ ¬ reMatchEnPassant ep
  case pos =>
    rw [if_pos h4] at h
    exact Bool.noConfusion (Except.ok.inj h)
  rw [if_neg h4] at h
  by_cases h5 : ¬ pyIsDigitStr hm ∨ ¬ pyIsDigitStr fm
  case pos =>
    rw [if_pos h5] at h
    exact Bool.noConfusion (Except.ok.inj h)
  rw [if_neg h5] at h
  push_neg at h5
  simp only [is_valid_fen_semantic] at h
  by_cases h6 : (pySplitSep '/' pp).length ≠ 8
  case pos =>
    rw [if_pos h6] at h
    exact Bool.noConfusion (Except.ok.inj h)
  rw [if_neg h6] at h
  rcases hres : placeRanks (pySplitSep '/' pp) emptyCharBoard 0 with e | res
  · rw [hres, ebind_error] at h
    exact Except.noConfusion h
  rw [hres, ebind_ok] at h
  try simp only [] at h
  rcases res with _ | board
  · exact Bool.noConfusion (Except.ok.inj h)
  · exact ⟨h1, h2, h5.1, h5.2, by omega, board, rfl⟩

theorem is_valid_fen_fields_inv {fen : String} {pp ac cr ep hm fm : List Char}
    (hsplit : pySplitWS fen.data = [pp, ac, cr, ep, hm, fm])
    (hvalid : is_valid_fen fen = true) :
    is_valid_fen_fields [pp, ac, cr, ep, hm, fm] = Except.ok true := by
  obtain ⟨b, hb⟩ := fields_no_error (pySplitWS fen.data)
  have hfb : is_valid_fen fen = b := by
    unfold is_valid_fen is_valid_fen_inner
    rw [hb]
  rw [hvalid] at hfb
  rw [← hsplit, hb, ← hfb]

/-- Claim C6: whenever `is_valid_fen` accepts a six-field FEN string,
its placement field splits on '/' into exactly 8 ranks, each consisting
only of digits 1-8 and letters of "pnbrqkPNBRQK" with running
file-count exactly 8; the standard starting FEN passes, while removing
a rank, adding a rank, or using the digit 9 each makes it return
false. -/
theorem C6_placement_grammar :
    (∀ (fen : String) (pp ac cr ep hm fm : List Char),
      pySplitWS fen.data = [pp, ac, cr, ep, hm, fm] →
      is_valid_fen fen = true →
      (pySplitSep '/' pp).length = 8 ∧
        ∀ rank ∈ pySplitSep '/' pp, rankOk rank = true) ∧
    is_valid_fen STARTING_FEN_LONG = true ∧
    is_valid_fen "rnbqkbnr/pppppppp/8/8/8/PPPPPPPP/RNBQKBNR w KQkq - 0 1" = false ∧
    is_valid_fen "rnbqkbnr/pppppppp/8/8/8/8/8/PPPPPPPP/RNBQKBNR w KQkq - 0 1" = false ∧
    is_valid_fen "rnbqkbnr/pppppppp/8/9/8/8/PPPPPPPP/RNBQKBNR w KQkq - 0 1" = false := by
  refine ⟨?_, by rfl, by rfl, by rfl, by rfl⟩
  intro fen pp ac cr ep hm fm hsplit hvalid
  obtain ⟨hpl, hac, hhm, hfm, hlen, board, hranks⟩ :=
    fields_true_inv (is_valid_fen_fields_inv hsplit hvalid)
  refine ⟨hlen, ?_⟩
  intro rank hrank
  obtain ⟨b0, br, b1, hpos⟩ :=
    placeRanks_some_ranks _ _ _ _ hranks rank hrank
  obtain ⟨hmem, hsum⟩ := placeRank_some_facts _ _ _ _ _ _ hpos
  have hsum8 : rankSum rank = 8 := by omega
  rw [rankOk, Bool.and_eq_true]
  refine ⟨?_, by simp [hsum8]⟩
  rw [List.all_eq_true]
  intro c hc
  obtain ⟨hcpp, hslash⟩ := mem_pySplitSep hrank hc
  have hplc : isPlacementChar c = true := by
    have h' := hpl
    rw [reMatchPlacement, Bool.and_eq_true, List.all_eq_true] at h'
    exact h'.2 c hcpp
  rw [isPlacementChar, Bool.or_eq_true, Bool.or_eq_true] at hplc
  rcases hplc with (hcontains | hdigit) | hslash2
  · rw [isRankChar, Bool.or_eq_true]
    exact Or.inr ((piece_letters_iff c).mp hcontains)
  · rw [isRankChar, Bool.or_eq_true]
    exact Or.inl hdigit
  · exact absurd (of_decide_eq_true hslash2) hslash

/-- Witness for C6 at the starting FEN. -/
theorem C6_placement_grammar_witness :
    (pySplitSep '/' "rnbqkbnr/pppppppp/8/8/8/8/PPPPPPPP/RNBQKBNR".data).length = 8 ∧
    ∀ rank ∈ pySplitSep '/' "rnbqkbnr/pppppppp/8/8/8/8/PPPPPPPP/RNBQKBNR".data,
      rankOk rank = true :=
  C6_placement_grammar.1 STARTING_FEN_LONG
    "rnbqkbnr/pppppppp/8/8/8/8/PPPPPPPP/RNBQKBNR".data "w".data "KQkq".data
    "-".data "0".data "1".data (by rfl) (by rfl)

/-- Counterexample to claim C3 as stated: a FEN whose other five fields
are valid but whose fullmove field is "0" is accepted by
`is_valid_fen`, not rejected. -/
theorem C3_counterexample :
    is_valid_fen "rnbqkbnr/pppppppp/8/8/8/8/PPPPPPPP/RNBQKBNR w KQkq - 0 0" = true := by
  rfl

/-- Claim C3 (amended): `is_valid_fen` accepts the sixth (fullmove)
field only when it is a nonempty all-digits literal — hence any value
≥ 0, with no ≥ 1 requirement: the fullmove field "0" is accepted, and a
non-numeric fullmove field is rejected. -/
theorem C3_fullmove_digits :
    (∀ (fen : String) (pp ac cr ep hm fm : List Char),
      pySplitWS fen.data = [pp, ac, cr, ep, hm, fm] →
      is_valid_fen fen = true → pyIsDigitStr fm = true) ∧
    is_valid_fen "rnbqkbnr/pppppppp/8/8/8/8/PPPPPPPP/RNBQKBNR w KQkq - 0 0" = true ∧
    is_valid_fen "rnbqkbnr/pppppppp/8/8/8/8/PPPPPPPP/RNBQKBNR w KQkq - 0 x" = false := by
  refine ⟨?_, by rfl, by rfl⟩
  intro fen pp ac cr ep hm fm hsplit hvalid
  exact (fields_true_inv (is_valid_fen_fields_inv hsplit hvalid)).2.2.2.1

/-- Witness for C3 (amended) at the starting FEN. -/
theorem C3_fullmove_digits_witness :
    pyIsDigitStr "1".data = true :=
  C3_fullmove_digits.1 STARTING_FEN_LONG
    "rnbqkbnr/pppppppp/8/8/8/8/PPPPPPPP/RNBQKBNR".data "w".data "KQkq".data
    "-".data "0".data "1".data (by rfl) (by rfl)

/-- Claim C1 evaluated on the code: after Black's double push a7-a5
(black pawn on a5, en-passant square a6, White to move) `is_valid_fen`
returns false although the claim (and the code's own comment, "Look for
black pawn on rank 5") requires true; with a black pawn placed on a6
itself (and none on a5) it returns true although the claim requires
false. The code reads `board[rank - 1][file]`, which for rank 6 is the
en-passant square itself, not the square south of it. -/
theorem C1_en_passant_eval :
    is_valid_fen "rnbqkbnr/1ppppppp/8/p7/8/8/PPPPPPPP/RNBQKBNR w KQkq a6 0 2" = false ∧
    is_valid_fen "rnbqkbnr/1ppppppp/p7/8/8/8/PPPPPPPP/RNBQKBNR w KQkq a6 0 2" = true :=
  ⟨by rfl, by rfl⟩

/-- Counterexample to claim C2 as stated: the malformed placement field
"8/8" (2 ranks instead of 8) does not make `board_from_fen` fail with
the grammar validator's error — it silently returns a (empty) board. -/
theorem C2_counterexample :
    (pySplitSep '/' "8/8".data).length ≠ 8 ∧
    board_from_fen "8/8".data = Except.ok ChessBoard.default :=
  ⟨by decide, by rfl⟩

/-- Claim C2 (amended): `board_from_fen` performs no validation. A
placement field with the wrong rank count silently yields a board; a
character outside the recognized piece-letter set fails with
`InvalidFENError` (the InvalidPieceSymbol reason) from
`piece_from_fen`; a rank overflowing 8 files fails with Python
`IndexError` from the unguarded board write, not with a grammar
error. -/
theorem C2_board_from_fen_behavior :
    board_from_fen "8/8".data = Except.ok ChessBoard.default ∧
    board_from_fen "rnbqkbnr/pppppppp/8/8/8/8/PPPPPPPP/RNBQKBNZ".data =
      Except.error (PyErr.invalidFEN "Z"
        "Not a valid FEN symbol for a piece. Should be one of (p,r,n,b,q,k), upper or lowercase") ∧
    board_from_fen "8/8/8/8/8/8/8/ppppppppp".data =
      Except.error PyErr.indexError :=
  ⟨by rfl, by rfl, by rfl⟩

/-- Counterexample to claim C5 as stated: a FEN whose six fields are
separated by tabs passes `is_valid_fen` (which splits on any
whitespace), yet `game_from_fen` (which splits on single spaces) still
raises `InvalidFENError` — from the piece decoder hitting the tab
character — so InvalidFEN is not raised *only* when validation fails,
and the carried reason does not name the failed rule. -/
theorem C5_counterexample :
    is_valid_fen "rnbqkbnr/pppppppp/8/8/8/8/PPPPPPPP/RNBQKBNR\tw\tKQkq\t-\t0\t1" = true ∧
    game_from_fen "rnbqkbnr/pppppppp/8/8/8/8/PPPPPPPP/RNBQKBNR\tw\tKQkq\t-\t0\t1" =
      Except.error (PyErr.invalidFEN "\t"
        "Not a valid FEN symbol for a piece. Should be one of (p,r,n,b,q,k), upper or lowercase") :=
  ⟨by rfl, by rfl⟩

/-- Claim C5 (amended): whenever `is_valid_fen` rejects the input,
`game_from_fen` raises `InvalidFENError` carrying the offending FEN
string and the fixed reason "FEN cannot be used to create game" (which
does not identify the failed rule); a single-space-separated valid FEN
such as the starting position decodes to a game rather than a default;
but some whitespace variants accepted by `is_valid_fen` also raise
`InvalidFENError` from the decoding stage. -/
theorem C5_game_from_fen :
    (∀ fen : String, is_valid_fen fen = false →
      game_from_fen fen =
        Except.error (PyErr.invalidFEN fen "FEN cannot be used to create game")) ∧
    (∃ g, game_from_fen STARTING_FEN_LONG = Except.ok g) := by
  refine ⟨?_, ⟨_, rfl⟩⟩
  intro fen h
  unfold game_from_fen
  rw [if_pos (by simp [h])]

/-- Witness for C5 (amended) at the invalid input "x". -/
theorem C5_game_from_fen_witness :
    game_from_fen "x" =
      Except.error (PyErr.invalidFEN "x" "FEN cannot be used to create game") :=
  C5_game_from_fen.1 "x" (by rfl)

/- ------------------------------------------------------------------
Agreement of the two placement decoders: lemmas for C10
------------------------------------------------------------------ -/

theorem piece_fns_agree {c : Char}
    (h : "prnbqkPRNBQK".data.contains c = true) :
    piece_from_fen c = Piece.from_fen_symbol c ∧
      ∃ p, piece_from_fen c = Except.ok p := by
  have hmem : c ∈ "prnbqkPRNBQK".data := List.mem_of_elem_eq_true h
  fin_cases hmem <;> exact ⟨rfl, _, rfl⟩

theorem loops_agree :
    ∀ (chars : List Char) (board : ChessBoard) (row col : Int),
      (∀ c ∈ chars, c = '/' ∨ pyIsDigit c = true ∨
        "prnbqkPRNBQK".data.contains c = true) →
      board_from_fen_loop chars board row col =
        ChessBoard.from_fen_loop chars board row col := by
  intro chars
  induction chars with
  | nil => intro board row col h; rfl
  | cons c rest ih =>
    intro board row col h
    have hc := h c (List.mem_cons_self _ _)
    have hrest := fun d hd => h d (List.mem_cons_of_mem _ hd)
    simp only [board_from_fen_loop, ChessBoard.from_fen_loop]
    by_cases h1 : c = '/'
    · rw [if_pos h1, if_pos h1]
      exact ih board (row - 1) 0 hrest
    · rw [if_neg h1, if_neg h1]
      by_cases h2 : pyIsDigit c = true
      · rw [if_pos h2, if_pos h2]
        exact ih board row _ hrest
      · rw [if_neg h2, if_neg h2]
        rcases hc with hc | hc | hc
        · exact absurd hc h1
        · exact absurd hc h2
        · obtain ⟨hagree, p, hp⟩ := piece_fns_agree hc
          rw [← hagree, hp]
          simp only [ebind_ok]
          rcases hset : board.set_piece (some p) row col with e | b2
          · simp only [ebind_error]
          · simp only [ebind_ok]
            exact ih b2 row (col + 1) hrest

theorem pySplitWSAux_no_space :
    ∀ (cs acc : List Char), (∀ c ∈ cs, pyIsSpace c = false) →
      (acc ≠ [] ∨ cs ≠ []) →
      pySplitWSAux cs acc = [acc.reverse ++ cs] := by
  intro cs
  induction cs with
  | nil =>
    intro acc h hne
    rcases hne with hne | hne
    · simp only [pySplitWSAux]
      rw [if_neg (by simpa using hne)]
      simp
    · exact absurd rfl hne
  | cons c cs ih =>
    intro acc h hne
    simp only [pySplitWSAux]
    rw [if_neg (by simp [h c (List.mem_cons_self _ _)])]
    rw [ih (c :: acc) (fun d hd => h d (List.mem_cons_of_mem _ hd))
      (Or.inl (by simp))]
    simp

theorem pySplitWS_single {cs : List Char} (hne : cs ≠ [])
    (h : ∀ c ∈ cs, pyIsSpace c = false) : pySplitWS cs = [cs] := by
  unfold pySplitWS
  rw [pySplitWSAux_no_space cs [] h (Or.inr hne)]
  simp

/-- Joining a list of ranks with a separator (inverse of `pySplitSep`). -/
def joinSep (sep : Char) : List (List Char) → List Char
  | [] => []
  | [r] => r
  | r :: rs => r ++ sep :: joinSep sep rs

theorem pySplitSepAux_ne_nil {sep : Char} :
    ∀ (cs acc : List Char), pySplitSepAux sep cs acc ≠ [] := by
  intro cs
  induction cs with
  | nil => intro acc; simp [pySplitSepAux]
  | cons c cs ih =>
    intro acc
    simp only [pySplitSepAux]
    by_cases hc : c = sep
    · rw [if_pos hc]; simp
    · rw [if_neg hc]; exact ih (c :: acc)

theorem joinSep_cons {sep : Char} {r : List Char} {rs : List (List Char)}
    (h : rs ≠ []) : joinSep sep (r :: rs) = r ++ sep :: joinSep sep rs := by
  cases rs with
  | nil => exact absurd rfl h
  | cons r2 rs2 => rfl

theorem pySplitSepAux_join {sep : Char} :
    ∀ (cs acc : List Char),
      joinSep sep (pySplitSepAux sep cs acc) = acc.reverse ++ cs := by
  intro cs
  induction cs with
  | nil =>
    intro acc
    simp [pySplitSepAux, joinSep]
  | cons c cs ih =>
    intro acc
    simp only [pySplitSepAux]
    by_cases hc : c = sep
    · rw [if_pos hc, joinSep_cons (pySplitSepAux_ne_nil cs []), ih []]
      subst hc
      simp
    · rw [if_neg hc, ih (c :: acc)]
      simp

theorem pySplitSep_join {sep : Char} (cs : List Char) :
    joinSep sep (pySplitSep sep cs) = cs := by
  unfold pySplitSep
  rw [pySplitSepAux_join cs []]
  simp

theorem mem_joinSep {sep : Char} :
    ∀ (rs : List (List Char)) (c : Char), c ∈ joinSep sep rs →
      (∃ r ∈ rs, c ∈ r) ∨ c = sep := by
  intro rs
  induction rs with
  | nil => intro c hc; cases hc
  | cons r rs ih =>
    intro c hc
    cases rs with
    | nil =>
      exact Or.inl ⟨r, List.mem_singleton_self r, by simpa [joinSep] using hc⟩
    | cons r2 rs2 =>
      rw [joinSep_cons (by simp)] at hc
      rcases List.mem_append.mp hc with hc | hc
      · exact Or.inl ⟨r, List.mem_cons_self _ _, hc⟩
      · rcases List.mem_cons.mp hc with rfl | hc
        · exact Or.inr rfl
        · rcases ih c hc with ⟨r3, hr3, hcr⟩ | rfl
          · exact Or.inl ⟨r3, List.mem_cons_of_mem _ hr3, hcr⟩
          · exact Or.inr rfl

theorem rankChar_toNat_ge {c : Char} (h : isRankChar c = true) :
    49 ≤ c.toNat := by
  rw [isRankChar, Bool.or_eq_true] at h
  rcases h with hd | hl
  · exact of_decide_eq_true (Bool.and_eq_true_iff.mp hd).1
  · have hmem : c ∈ "pnbrqkPNBRQK".data := List.mem_of_elem_eq_true hl
    fin_cases hmem <;> decide

theorem rankChar_not_space {c : Char} (h : isRankChar c = true) :
    pyIsSpace c = false := by
  have hge := rankChar_toNat_ge h
  rw [pyIsSpace]
  simp only [Bool.or_eq_false_iff]
  refine ⟨⟨⟨⟨⟨?_, ?_⟩, ?_⟩, ?_⟩, ?_⟩, ?_⟩ <;>
    · rw [decide_eq_false_iff_not]
      rintro rfl
      exact absurd hge (by decide)

theorem rankChar_ne_slash {c : Char} (h : isRankChar c = true) :
    c ≠ '/' := by
  rintro rfl
  exact absurd (rankChar_toNat_ge h) (by decide)

theorem rankChar_piece_of_not_digit {c : Char} (h : isRankChar c = true)
    (hd : ¬ pyIsDigit c = true) :
    "prnbqkPRNBQK".data.contains c = true := by
  rw [isRankChar, Bool.or_eq_true] at h
  rcases h with hdig | hl
  · obtain ⟨h1, h2⟩ := Bool.and_eq_true_iff.mp hdig
    exact absurd (by
      rw [pyIsDigit, Bool.and_eq_true]
      have g1 := of_decide_eq_true h1
      have g2 := of_decide_eq_true h2
      exact ⟨decide_eq_true (by omega), decide_eq_true (by omega)⟩) hd
  · exact (piece_letters_iff c).mpr hl

theorem board_from_fen_loop_rank :
    ∀ (chars : List Char) (board : ChessBoard) (row col : Int)
      (tail : List Char),
      board.WF → 0 ≤ row → row < 8 → 0 ≤ col →
      (∀ c ∈ chars, isRankChar c = true) →
      col + rankSum chars ≤ 8 →
      ∃ b2, b2.WF ∧ board_from_fen_loop (chars ++ tail) board row col =
        board_from_fen_loop tail b2 row (col + rankSum chars) := by
  intro chars
  induction chars with
  | nil =>
    intro board row col tail wf h0 h1 h2 hch hsum
    refine ⟨board, wf, ?_⟩
    simp [rankSum]
  | cons c rest ih =>
    intro board row col tail wf h0 h1 h2 hch hsum
    have hcr := hch c (List.mem_cons_self _ _)
    have hrest := fun d hd => hch d (List.mem_cons_of_mem _ hd)
    have hslash := rankChar_ne_slash hcr
    rw [List.cons_append]
    simp only [board_from_fen_loop]
    rw [if_neg hslash]
    by_cases hd : pyIsDigit c = true
    · rw [if_pos hd]
      have hrs : rankSum (c :: rest) = digitVal c + rankSum rest := by
        simp [rankSum, hd]
      rw [hrs] at hsum
      push_cast at hsum
      obtain ⟨b2, hwf2, heq⟩ := ih board row (col + digitVal c) tail wf h0 h1
        (by omega) hrest (by omega)
      refine ⟨b2, hwf2, ?_⟩
      rw [heq]
      congr 1
      rw [hrs]
      push_cast
      ring
    · rw [if_neg hd]
      have hpc := rankChar_piece_of_not_digit hcr hd
      obtain ⟨hagree, p, hp⟩ := piece_fns_agree hpc
      rw [hp]
      simp only [ebind_ok]
      have hrs : rankSum (c :: rest) = 1 + rankSum rest := by
        simp [rankSum, hd]
      rw [hrs] at hsum
      push_cast at hsum
      have hcol8 : col < 8 := by omega
      obtain ⟨b2, hset, hwf2, hget, hframe⟩ :=
        set_piece_frame wf h0 h1 h2 hcol8 (some p)
      rw [hset]
      simp only [ebind_ok]
      obtain ⟨b3, hwf3, heq⟩ := ih b2 row (col + 1) tail hwf2 h0 h1
        (by omega) hrest (by omega)
      refine ⟨b3, hwf3, ?_⟩
      rw [heq]
      congr 1
      rw [hrs]
      push_cast
      ring

theorem board_from_fen_loop_ranks :
    ∀ (ranks : List (List Char)) (board : ChessBoard) (row : Int),
      board.WF → 0 ≤ row → row < 8 → (ranks.length : Int) = row + 1 →
      (∀ r ∈ ranks, rankOk r = true) →
      ∃ b2, board_from_fen_loop (joinSep '/' ranks) board row 0 =
        Except.ok b2 := by
  intro ranks
  induction ranks with
  | nil =>
    intro board row wf h0 h1 hlen hr
    exfalso
    simp only [List.length_nil, Nat.cast_zero] at hlen
    omega
  | cons r rs ih =>
    intro board row wf h0 h1 hlen hr
    have hrok := hr r (List.mem_cons_self _ _)
    rw [rankOk, Bool.and_eq_true_iff] at hrok
    obtain ⟨hall, hsumb⟩ := hrok
    have hall' : ∀ c ∈ r, isRankChar c = true := List.all_eq_true.mp hall
    have hsum8 : rankSum r = 8 := of_decide_eq_true hsumb
    cases rs with
    | nil =>
      obtain ⟨b2, hwf2, heq⟩ := board_from_fen_loop_rank r board row 0 []
        wf h0 h1 le_rfl hall' (by rw [hsum8]; norm_num)
      refine ⟨b2, ?_⟩
      have happ : r ++ ([] : List Char) = r := by simp
      show board_from_fen_loop (joinSep '/' [r]) board row 0 = Except.ok b2
      rw [show joinSep '/' [r] = r from rfl, ← happ, heq]
      rfl
    | cons r2 rs2 =>
      rw [joinSep_cons (by simp)]
      obtain ⟨b2, hwf2, heq⟩ := board_from_fen_loop_rank r board row 0
        ('/' :: joinSep '/' (r2 :: rs2)) wf h0 h1 le_rfl hall'
        (by rw [hsum8]; norm_num)
      rw [heq]
      simp only [board_from_fen_loop]
      rw [if_pos trivial]
      have hlen2 : ((r2 :: rs2).length : Int) = (row - 1) + 1 := by
        simp only [List.length_cons, Nat.cast_add, Nat.cast_one] at hlen ⊢
        omega
      have hrow1 : 0 ≤ row - 1 := by
        simp only [List.length_cons, Nat.cast_add, Nat.cast_one] at hlen
        have : (0 : Int) ≤ rs2.length := by positivity
        omega
      exact ih b2 (row - 1) hwf2 hrow1 (by omega) hlen2
        (fun rr hrr => hr rr (List.mem_cons_of_mem _ hrr))

/-- The placement grammar as claim C10 states it: splitting on '/'
yields exactly 8 ranks, each passing `rankOk`. -/
def placementOk (cs : List Char) : Bool :=
  ((pySplitSep '/' cs).length = 8) && (pySplitSep '/' cs).all rankOk

/-- Claim C10: on every placement field satisfying the placement
grammar, the two placement decoders agree: `board_from_fen` and
`ChessBoard.from_fen` both succeed and produce the same board. -/
theorem C10_decoders_agree :
    ∀ field : List Char, placementOk field = true →
      ∃ b, board_from_fen field = Except.ok b ∧
        ChessBoard.from_fen field = Except.ok b := by
  intro field hok
  rw [placementOk, Bool.and_eq_true_iff] at hok
  obtain ⟨hlenb, hallb⟩ := hok
  have hlen8 : (pySplitSep '/' field).length = 8 := of_decide_eq_true hlenb
  have hranks : ∀ r ∈ pySplitSep '/' field, rankOk r = true :=
    List.all_eq_true.mp hallb
  have hjoin : joinSep '/' (pySplitSep '/' field) = field := pySplitSep_join field
  have hfieldchars : ∀ c ∈ field, c = '/' ∨ pyIsDigit c = true ∨
      "prnbqkPRNBQK".data.contains c = true := by
    intro c hcf
    have hcf2 : c ∈ joinSep '/' (pySplitSep '/' field) := by
      rw [hjoin]; exact hcf
    rcases mem_joinSep _ c hcf2 with ⟨r, hrmem, hcr⟩ | rfl
    · have hro := hranks r hrmem
      rw [rankOk, Bool.and_eq_true_iff] at hro
      have hic := List.all_eq_true.mp hro.1 c hcr
      by_cases hd : pyIsDigit c = true
      · exact Or.inr (Or.inl hd)
      · exact Or.inr (Or.inr (rankChar_piece_of_not_digit hic hd))
    · exact Or.inl rfl
  have hnospace : ∀ c ∈ field, pyIsSpace c = false := by
    intro c hcf
    have hcf2 : c ∈ joinSep '/' (pySplitSep '/' field) := by
      rw [hjoin]; exact hcf
    rcases mem_joinSep _ c hcf2 with ⟨r, hrmem, hcr⟩ | rfl
    · have hro := hranks r hrmem
      rw [rankOk, Bool.and_eq_true_iff] at hro
      exact rankChar_not_space (List.all_eq_true.mp hro.1 c hcr)
    · decide
  have hne : field ≠ [] := by
    intro h0
    rw [h0] at hlen8
    simp [pySplitSep, pySplitSepAux] at hlen8
  obtain ⟨b, hb⟩ := board_from_fen_loop_ranks (pySplitSep '/' field)
    ⟨create_empty_squares⟩ 7 default_WF (by norm_num) (by norm_num)
    (by rw [hlen8]; norm_num) hranks
  rw [hjoin] at hb
  refine ⟨b, ?_, ?_⟩
  · unfold board_from_fen
    exact hb
  · unfold ChessBoard.from_fen
    rw [pySplitWS_single hne hnospace]
    rw [show pyGet [field] (0 : Int) = Except.ok field from rfl, ebind_ok]
    rw [← loops_agree field ⟨create_empty_squares⟩ 7 0 hfieldchars]
    exact hb

/-- Witness for C10 at the starting placement field. -/
theorem C10_decoders_agree_witness :
    placementOk "rnbqkbnr/pppppppp/8/8/8/8/PPPPPPPP/RNBQKBNR".data = true ∧
    ∃ b, board_from_fen "rnbqkbnr/pppppppp/8/8/8/8/PPPPPPPP/RNBQKBNR".data =
        Except.ok b ∧
      ChessBoard.from_fen "rnbqkbnr/pppppppp/8/8/8/8/PPPPPPPP/RNBQKBNR".data =
        Except.ok b :=
  ⟨by rfl, C10_decoders_agree _ (by rfl)⟩
